import Mathlib

/-!
Verification development for the PAOA-Visualizer algorithmic core.

The TypeScript source is shallowly embedded: JavaScript numbers holding
probabilities become rationals (`ℚ`), bit arrays become `List ℕ`,
`Math.random()` draws become explicit arguments (a draw `r : ℚ` per gate
application, a choice stream for shuffles), exceptions become `Option`,
and `Math.pow` (used only inside SPSA gain sequences) becomes an explicit
function argument.  JavaScript's `arr[i]` reads that may yield `undefined`
are embedded with `List.getElem?` / `List.getD` as appropriate.
-/

/-- Edge of a graph, from graph-utils: an (unordered in intent) pair of node ids. -/
structure Edge where
  source : ℕ
  target : ℕ
deriving DecidableEq, Repr

/-- One stochastic two-bit gate, from paoa.ts `CircuitGate`:
bit indices of the edge endpoints and a 4x4 matrix (row-major list of rows). -/
structure CircuitGate where
  bitIndices : ℕ × ℕ
  matrix : List (List ℚ)
deriving DecidableEq, Repr

/-- Embeds the JavaScript expression `params[k] || 0.5` of the circuit
builders: an out-of-range read (`undefined`) and the falsy value `0`
both fall back to the neutral `1/2`. -/
def paramAt (params : List ℚ) (k : ℕ) : ℚ :=
  match params[k]? with
  | none => 1/2
  | some v => if v = 0 then 1/2 else v

/-- The 4x4 matrix built by `reducedPaoaCircuit` for one edge from its
scalar parameter `p` (cells not assigned in the source stay `0`):
row 1 is `[p, p, 1-p, 1-p]`, row 2 is `[1-p, 1-p, p, p]`. -/
def reducedMatrix (p : ℚ) : List (List ℚ) :=
  [[0, 0, 0, 0],
   [p, p, 1 - p, 1 - p],
   [1 - p, 1 - p, p, p],
   [0, 0, 0, 0]]

/-- The 4x4 matrix built by `minimumPaoaCircuit` from the layer-shared
parameters `p1, p2`. -/
def minimumMatrix (p1 p2 : ℚ) : List (List ℚ) :=
  [[0, 0, 0, 0],
   [p1, p2, 1 - p2, 1 - p1],
   [1 - p1, 1 - p2, p2, p1],
   [0, 0, 0, 0]]

/-- The 4x4 matrix built by `standardPaoaCircuit` for the gate whose
first parameter slot is `k`: column `col` gets `params[k+col] || 0.5`
in row 1 and its complement in row 2. -/
def standardMatrix (params : List ℚ) (k : ℕ) : List (List ℚ) :=
  [[0, 0, 0, 0],
   [paramAt params k, paramAt params (k+1), paramAt params (k+2), paramAt params (k+3)],
   [1 - paramAt params k, 1 - paramAt params (k+1), 1 - paramAt params (k+2),
     1 - paramAt params (k+3)],
   [0, 0, 0, 0]]

/-- paoa.ts `reducedPaoaCircuit`: one gate per edge per layer; the running
parameter index `k` of the source is the closed form `l * |edges| + e`. -/
def reducedPaoaCircuit (numNodes : ℕ) (edges : List Edge) (params : List ℚ)
    (layers : ℕ) : List CircuitGate :=
  (List.range layers).flatMap fun l =>
    edges.enum.map fun ie =>
      { bitIndices := (ie.2.source, ie.2.target)
        matrix := reducedMatrix (paramAt params (l * edges.length + ie.1)) }

/-- paoa.ts `minimumPaoaCircuit`: two parameters per layer, shared by every
edge of the layer; the source's per-layer parameter index `m` is `2 * l`. -/
def minimumPaoaCircuit (numNodes : ℕ) (edges : List Edge) (params : List ℚ)
    (layers : ℕ) : List CircuitGate :=
  (List.range layers).flatMap fun l =>
    edges.map fun edge =>
      { bitIndices := (edge.source, edge.target)
        matrix := minimumMatrix (paramAt params (2 * l)) (paramAt params (2 * l + 1)) }

/-- paoa.ts `standardPaoaCircuit`: four parameter slots per edge per layer;
the source's running index `k` is the closed form `4 * (l * |edges| + e)`. -/
def standardPaoaCircuit (numNodes : ℕ) (edges : List Edge) (params : List ℚ)
    (layers : ℕ) : List CircuitGate :=
  (List.range layers).flatMap fun l =>
    edges.enum.map fun ie =>
      { bitIndices := (ie.2.source, ie.2.target)
        matrix := standardMatrix params (4 * (l * edges.length + ie.1)) }

/-- paoa.ts `AlgorithmType`. -/
inductive AlgorithmType
  | reduced
  | minimum
  | standard
deriving DecidableEq, Repr

/-- paoa.ts `getCircuitGenerator`. -/
def getCircuitGenerator (t : AlgorithmType) :
    ℕ → List Edge → List ℚ → ℕ → List CircuitGate :=
  match t with
  | .minimum => minimumPaoaCircuit
  | .standard => standardPaoaCircuit
  | .reduced => reducedPaoaCircuit

/-- Matrix cell read `matrix[row][col]`; rows and columns are in range at
every use site reached by the source, so the `0` default is inert. -/
def mAt (m : List (List ℚ)) (row col : ℕ) : ℚ :=
  (m.getD row []).getD col 0

/-- The 2-bit input state `bitI * 2 + bitJ` read by `applyGate` and by the
step-by-step runner. -/
def inputStateOf (bits : List ℕ) (gate : CircuitGate) : ℕ :=
  bits.getD gate.bitIndices.1 0 * 2 + bits.getD gate.bitIndices.2 0

/-- The probability column `[matrix[0][s], matrix[1][s], matrix[2][s], matrix[3][s]]`. -/
def gateColumn (gate : CircuitGate) (s : ℕ) : List ℚ :=
  [mAt gate.matrix 0 s, mAt gate.matrix 1 s, mAt gate.matrix 2 s, mAt gate.matrix 3 s]

/-- The sampling loop of `applyGate` / `runCircuitStepByStep`, unrolled:
`k` runs 0..3, accumulating `cumulative` and stopping at the first `k`
with `r <= cumulative`; if no iteration fires, the initial value 3 stays. -/
def sampleIndex (probs : List ℚ) (r : ℚ) : ℕ :=
  if r ≤ probs.getD 0 0 then 0
  else if r ≤ probs.getD 0 0 + probs.getD 1 0 then 1
  else if r ≤ probs.getD 0 0 + probs.getD 1 0 + probs.getD 2 0 then 2
  else if r ≤ probs.getD 0 0 + probs.getD 1 0 + probs.getD 2 0 + probs.getD 3 0 then 3
  else 3

/-- Sum of the first `m` entries of a probability column (so
`cumul P (k+1)` is the source's `cumulative` after iteration `k`). -/
def cumul (probs : List ℚ) (m : ℕ) : ℚ :=
  (probs.take m).sum

/-- paoa.ts `applyGate` with the `Math.random()` draw `r` explicit:
writes `floor(k/2) % 2` at the source index and `k % 2` at the target index
(the second write wins if the indices coincide, as in the source). -/
def applyGate (bits : List ℕ) (gate : CircuitGate) (r : ℚ) : List ℕ :=
  let k := sampleIndex (gateColumn gate (inputStateOf bits gate)) r
  (bits.set gate.bitIndices.1 (k / 2 % 2)).set gate.bitIndices.2 (k % 2)

/-- Gate loop of one batch-mode trial of paoa.ts `runCircuit`; `rs g` is
the `Math.random()` draw consumed by the `g`-th gate of this trial. -/
def runGates (bits : List ℕ) (circuit : List CircuitGate) (rs : ℕ → ℚ) : List ℕ :=
  match circuit with
  | [] => bits
  | g :: gs => runGates (applyGate bits g (rs 0)) gs (fun n => rs (n + 1))

/-- paoa.ts `runCircuit`: `numTrials` independent trials from the same
starting bits; the shared random source is the stream `rs`, trial `t`
consuming the draws numbered `t * |circuit| + g`. -/
def runCircuit (startingBits : List ℕ) (circuit : List CircuitGate)
    (numTrials : ℕ) (rs : ℕ → ℚ) : List (List ℕ) :=
  (List.range numTrials).map fun t =>
    runGates startingBits circuit (fun g => rs (t * circuit.length + g))

/-- paoa.ts `StepInfo`. -/
structure StepInfo where
  activeEdge : ℕ × ℕ
  matrix : List (List ℚ)
  inputState : ℕ
  outputState : ℕ
  probs : List ℚ
  bitsBefore : List ℕ
  bitsAfter : List ℕ
deriving DecidableEq, Repr

/-- Body of one iteration of the generator `runCircuitStepByStep`:
the same input-state/column/sampling computation as `applyGate`, with
before/after snapshots captured by value. -/
def stepOf (bits : List ℕ) (gate : CircuitGate) (r : ℚ) : StepInfo :=
  let s := inputStateOf bits gate
  let probs := gateColumn gate s
  let k := sampleIndex probs r
  { activeEdge := gate.bitIndices
    matrix := gate.matrix
    inputState := s
    outputState := k
    probs := probs
    bitsBefore := bits
    bitsAfter := (bits.set gate.bitIndices.1 (k / 2 % 2)).set gate.bitIndices.2 (k % 2) }

/-- paoa.ts `runCircuitStepByStep` (inspection mode), with the per-gate
draws explicit; the generator's lazily yielded sequence is embedded as the
list of all yielded `StepInfo` records in order. -/
def runCircuitStepByStep (startingBits : List ℕ) (circuit : List CircuitGate)
    (rs : ℕ → ℚ) : List StepInfo :=
  match circuit with
  | [] => []
  | g :: gs =>
      let s := stepOf startingBits g (rs 0)
      s :: runCircuitStepByStep s.bitsAfter gs (fun n => rs (n + 1))

/-- paoa.ts `cutSize`: counts edges whose endpoint reads differ; the
JavaScript `!==` on possibly-`undefined` reads is `≠` on `Option ℕ`. -/
def cutSize (x : List ℕ) (edges : List Edge) : ℕ :=
  (edges.filter fun e => x[e.source]? ≠ x[e.target]?).length

/-- graph-utils `generateCompleteGraph`, edge list only (node placement is
out of scope): all pairs `(i, j)` with `i < j < n`, in the source's order. -/
def generateCompleteGraph (n : ℕ) : List Edge :=
  (List.range n).flatMap fun i =>
    ((List.range n).drop (i + 1)).map fun j => Edge.mk i j

/-- The JavaScript destructuring swap `[points[i], points[j]] = [points[j], points[i]]`. -/
def swapL (l : List ℕ) (i j : ℕ) : List ℕ :=
  (l.set i (l.getD j 0)).set j (l.getD i 0)

/-- The Fisher-Yates loop of `tryGenerateRegularEdges`: iteration with
loop variable `i+1` swaps position `i+1` with `cs t % (i+2)`, the embedding
of `Math.floor(Math.random() * (i+2))` (which ranges over `0..i+1`);
`t` counts the draws consumed so far. -/
def fyGo (cs : ℕ → ℕ) : ℕ → ℕ → List ℕ → List ℕ
  | _, 0, l => l
  | t, i + 1, l => fyGo cs (t + 1) i (swapL l (i + 1) (cs t % (i + 2)))

/-- Fisher-Yates shuffle of graph-utils, driven by the choice stream `cs`. -/
def shuffle (l : List ℕ) (cs : ℕ → ℕ) : List ℕ :=
  fyGo cs 0 (l.length - 1) l

/-- The multiset of stub points of `tryGenerateRegularEdges`: each node id
`0..n-1` repeated `d` times, in order. -/
def stubPoints (n d : ℕ) : List ℕ :=
  (List.range n).flatMap fun i => List.replicate d i

/-- The pairing loop of `tryGenerateRegularEdges`: consecutive points are
paired; a self-loop or a duplicate unordered pair (tracked by `seen`, the
embedding of the string `edgeSet`) aborts the whole attempt (`none`, the
embedding of `throw`).  A trailing odd element cannot occur on inputs that
pass the caller's `n * d` evenness guard. -/
def pairUp (seen : List (ℕ × ℕ)) : List ℕ → Option (List Edge)
  | u :: v :: rest =>
      if u = v then none
      else
        let key := if u < v then (u, v) else (v, u)
        if key ∈ seen then none
        else (pairUp (key :: seen) rest).map fun es => Edge.mk u v :: es
  | _ => some []

/-- graph-utils `tryGenerateRegularEdges`, with the shuffle's random draws
given by the choice stream `cs`. -/
def tryGenerateRegularEdges (n d : ℕ) (cs : ℕ → ℕ) : Option (List Edge) :=
  pairUp [] (shuffle (stubPoints n d) cs)

/-- The deterministic fallback of `generateRandomRegularGraph`: a cycle,
augmented by a skip-one cycle when `d > 2`, interleaved per node as in the
source's single loop. -/
def fallbackEdges (n d : ℕ) : List Edge :=
  (List.range n).flatMap fun i =>
    Edge.mk i ((i + 1) % n) :: (if d > 2 then [Edge.mk i ((i + 2) % n)] else [])

/-- The retry loop of `generateRandomRegularGraph`: attempt `a` uses the
choice stream `css a`; after `fuel` failed attempts the fallback is taken. -/
def tryAttempts (n d : ℕ) (css : ℕ → ℕ → ℕ) : ℕ → ℕ → List Edge
  | _, 0 => fallbackEdges n d
  | a, fuel + 1 =>
      match tryGenerateRegularEdges n d (css a) with
      | some es => es
      | none => tryAttempts n d css (a + 1) fuel

/-- graph-utils `generateRandomRegularGraph`, edge list only (node placement
is out of scope): the two input guards throw (`none`), then up to 100
pairing attempts, then the deterministic fallback. -/
def generateRandomRegularGraph (n d : ℕ) (css : ℕ → ℕ → ℕ) : Option (List Edge) :=
  if n * d % 2 ≠ 0 then none
  else if d ≥ n then none
  else some (tryAttempts n d css 0 100)

/-- Degree of node `v` in an edge list: occurrences of `v` among all
edge endpoints. -/
def degree (v : ℕ) (es : List Edge) : ℕ :=
  (es.flatMap fun e => [e.source, e.target]).count v

/-- A simple edge list: no self-loop, and no two edges with the same
unordered endpoint pair. -/
def isSimple (es : List Edge) : Prop :=
  (∀ e ∈ es, e.source ≠ e.target) ∧
    (es.map fun e =>
      if e.source < e.target then (e.source, e.target) else (e.target, e.source)).Nodup

instance (es : List Edge) : Decidable (isSimple es) := by
  unfold isSimple
  infer_instance

/-- The componentwise clip `Math.max(0, Math.min(1, v))` of spsaStep. -/
def clip01 (x : ℚ) : ℚ :=
  max 0 (min 1 x)

/-- paoa.ts `spsaStep`, with the randomness and `Math.pow` explicit:
`ds i` is the draw behind `Δ_i = (Math.random() < 0.5 ? 1 : -1)` and
`powf` embeds `Math.pow` in the gain sequences.  The source's default
hyperparameters are `a = 1/10`, `c = 1/10`, `alpha = 0.602`,
`gamma = 0.101`, `A = 10`. -/
def spsaStep (currentParams : List ℚ) (iteration : ℕ)
    (objectiveFunction : List ℚ → ℚ) (ds : ℕ → ℚ) (powf : ℚ → ℚ → ℚ)
    (a c alpha gamma A : ℚ) : List ℚ × ℚ :=
  let k := iteration
  let ak := a / powf ((k : ℚ) + 1 + A) alpha
  let ck := c / powf ((k : ℚ) + 1) gamma
  let delta := currentParams.enum.map fun p => if ds p.1 < 1/2 then (1 : ℚ) else -1
  let thetaPlus := currentParams.enum.map fun p => clip01 (p.2 + ck * delta.getD p.1 0)
  let costPlus := objectiveFunction thetaPlus
  let thetaMinus := currentParams.enum.map fun p => clip01 (p.2 - ck * delta.getD p.1 0)
  let costMinus := objectiveFunction thetaMinus
  let gh := (costPlus - costMinus) / (2 * ck)
  let newParams := currentParams.enum.map fun p => clip01 (p.2 - ak * gh * delta.getD p.1 0)
  let currentCost := objectiveFunction newParams
  (newParams, currentCost)

lemma clip01_nonneg (x : ℚ) : 0 ≤ clip01 x :=
  le_max_left 0 (min 1 x)

lemma clip01_le_one (x : ℚ) : clip01 x ≤ 1 :=
  max_le (by norm_num) (min_le_left 1 x)

/-- C8: `cutSize` is a non-negative integer (it lives in `ℕ`) bounded by
the number of edges; it is `0` on a monochromatic assignment, `|edges|`
when every edge's endpoints differ, and on the concrete scenario of the
spec, `cutSize [0,1,0,1]` over the complete graph on 4 nodes is `4`. -/
theorem c8_cutSize_spec (x : List ℕ) (edges : List Edge)
    (hcov : ∀ e ∈ edges, e.source < x.length ∧ e.target < x.length) :
    cutSize x edges ≤ edges.length
    ∧ ((∀ a ∈ x, ∀ b ∈ x, a = b) → cutSize x edges = 0)
    ∧ ((∀ e ∈ edges, x[e.source]? ≠ x[e.target]?) → cutSize x edges = edges.length)
    ∧ cutSize [0, 1, 0, 1] (generateCompleteGraph 4) = 4 := by
  refine ⟨List.length_filter_le _ _, ?_, ?_, by decide⟩
  · intro hmono
    have h0 : (edges.filter fun e => x[e.source]? ≠ x[e.target]?) = [] := by
      rw [List.filter_eq_nil_iff]
      intro e he
      obtain ⟨hs, ht⟩ := hcov e he
      have hsv : x[e.source]? = some x[e.source] := List.getElem?_eq_getElem hs
      have htv : x[e.target]? = some x[e.target] := List.getElem?_eq_getElem ht
      have : x[e.source] = x[e.target] :=
        hmono _ (x.getElem_mem hs) _ (x.getElem_mem ht)
      simp [hsv, htv, this]
    unfold cutSize
    rw [h0]
    rfl
  · intro hall
    have h1 : (edges.filter fun e => x[e.source]? ≠ x[e.target]?) = edges := by
      rw [List.filter_eq_self]
      intro e he
      simpa using hall e he
    unfold cutSize
    rw [h1]

/-- Witness for C8 at a concrete covered assignment. -/
theorem c8_witness :
    (∀ e ∈ [Edge.mk 0 1], e.source < ([0, 1] : List ℕ).length ∧
      e.target < ([0, 1] : List ℕ).length)
    ∧ cutSize [0, 1] [Edge.mk 0 1] ≤ 1 := by
  have h : ∀ e ∈ [Edge.mk 0 1], e.source < ([0, 1] : List ℕ).length ∧
      e.target < ([0, 1] : List ℕ).length := by decide
  exact ⟨h, (c8_cutSize_spec [0, 1] [Edge.mk 0 1] h).1⟩

/-- C7: one SPSA step returns a parameter vector every entry of which is
clipped into `[0, 1]`, for any starting vector in `[0, 1]`, any iteration
index, any objective, any draws, any power function and any hyperparameters. -/
theorem c7_spsa_clip (currentParams : List ℚ) (iteration : ℕ)
    (objectiveFunction : List ℚ → ℚ) (ds : ℕ → ℚ) (powf : ℚ → ℚ → ℚ)
    (a c alpha gamma A : ℚ)
    (hp : ∀ p ∈ currentParams, 0 ≤ p ∧ p ≤ 1) :
    ∀ q ∈ (spsaStep currentParams iteration objectiveFunction ds powf
        a c alpha gamma A).1, 0 ≤ q ∧ q ≤ 1 := by
  intro q hq
  have hfst : (spsaStep currentParams iteration objectiveFunction ds powf
      a c alpha gamma A).1 = currentParams.enum.map fun p =>
        clip01 (p.2 - (a / powf ((iteration : ℚ) + 1 + A) alpha) *
          (((objectiveFunction (currentParams.enum.map fun p =>
              clip01 (p.2 + (c / powf ((iteration : ℚ) + 1) gamma) *
                ((currentParams.enum.map fun p =>
                  if ds p.1 < 1/2 then (1 : ℚ) else -1).getD p.1 0)))) -
            (objectiveFunction (currentParams.enum.map fun p =>
              clip01 (p.2 - (c / powf ((iteration : ℚ) + 1) gamma) *
                ((currentParams.enum.map fun p =>
                  if ds p.1 < 1/2 then (1 : ℚ) else -1).getD p.1 0))))) /
            (2 * (c / powf ((iteration : ℚ) + 1) gamma))) *
          ((currentParams.enum.map fun p =>
            if ds p.1 < 1/2 then (1 : ℚ) else -1).getD p.1 0)) := rfl
  rw [hfst, List.mem_map] at hq
  obtain ⟨p, _, rfl⟩ := hq
  exact ⟨clip01_nonneg _, clip01_le_one _⟩

/-- Witness for C7 at a concrete parameter vector and constant objective. -/
theorem c7_witness :
    (∀ p ∈ [(1 : ℚ)/2], 0 ≤ p ∧ p ≤ 1)
    ∧ ∀ q ∈ (spsaStep [(1 : ℚ)/2] 0 (fun _ => 0) (fun _ => 0) (fun _ _ => 1)
        (1/10) (1/10) (602/1000) (101/1000) 10).1, 0 ≤ q ∧ q ≤ 1 := by
  have h : ∀ p ∈ [(1 : ℚ)/2], 0 ≤ p ∧ p ≤ 1 := by
    intro p hp
    simp only [List.mem_singleton] at hp
    subst hp
    norm_num
  exact ⟨h, c7_spsa_clip [(1 : ℚ)/2] 0 (fun _ => 0) (fun _ => 0) (fun _ _ => 1)
    (1/10) (1/10) (602/1000) (101/1000) 10 h⟩

/-- Sum of column `c` of a matrix stored as a list of rows. -/
def colSum (m : List (List ℚ)) (c : ℕ) : ℚ :=
  (m.map fun row => row.getD c 0).sum

/-- Every gate matrix of every variant has the two-free-rows shape:
rows 0 and 3 all zero, and row 2 the complement of row 1. -/
lemma gate_matrix_shape (t : AlgorithmType) (n : ℕ) (edges : List Edge)
    (params : List ℚ) (layers : ℕ) :
    ∀ gate ∈ getCircuitGenerator t n edges params layers,
      ∃ q0 q1 q2 q3 : ℚ, gate.matrix =
        [[0, 0, 0, 0], [q0, q1, q2, q3],
         [1 - q0, 1 - q1, 1 - q2, 1 - q3], [0, 0, 0, 0]] := by
  intro gate hg
  cases t with
  | reduced =>
      simp only [getCircuitGenerator, reducedPaoaCircuit, List.mem_flatMap,
        List.mem_map] at hg
      obtain ⟨l, -, ie, -, rfl⟩ := hg
      refine ⟨paramAt params (l * edges.length + ie.1),
        paramAt params (l * edges.length + ie.1),
        1 - paramAt params (l * edges.length + ie.1),
        1 - paramAt params (l * edges.length + ie.1), ?_⟩
      simp only [reducedMatrix]
      norm_num
  | minimum =>
      simp only [getCircuitGenerator, minimumPaoaCircuit, List.mem_flatMap,
        List.mem_map] at hg
      obtain ⟨l, -, edge, -, rfl⟩ := hg
      refine ⟨paramAt params (2 * l), paramAt params (2 * l + 1),
        1 - paramAt params (2 * l + 1), 1 - paramAt params (2 * l), ?_⟩
      simp only [minimumMatrix]
      norm_num
  | standard =>
      simp only [getCircuitGenerator, standardPaoaCircuit, List.mem_flatMap,
        List.mem_map] at hg
      obtain ⟨l, -, ie, -, rfl⟩ := hg
      exact ⟨_, _, _, _, rfl⟩

/-- C2: for each of the three circuit builders and parameters in `[0,1]`,
every column of every gate's matrix sums to exactly 1. -/
theorem c2_column_sums (t : AlgorithmType) (n : ℕ) (edges : List Edge)
    (params : List ℚ) (layers : ℕ)
    (hp : ∀ x ∈ params, 0 ≤ x ∧ x ≤ 1) :
    ∀ gate ∈ getCircuitGenerator t n edges params layers,
      ∀ c < 4, colSum gate.matrix c = 1 := by
  intro gate hg c hc
  obtain ⟨q0, q1, q2, q3, hm⟩ := gate_matrix_shape t n edges params layers gate hg
  rw [hm]
  interval_cases c <;> simp [colSum]

/-- Witness for C2 on a concrete one-edge graph. -/
theorem c2_witness :
    (∀ x ∈ [(1 : ℚ)/2], 0 ≤ x ∧ x ≤ 1)
    ∧ ∀ gate ∈ getCircuitGenerator .reduced 2 [Edge.mk 0 1] [(1 : ℚ)/2] 1,
        ∀ c < 4, colSum gate.matrix c = 1 := by
  have h : ∀ x ∈ [(1 : ℚ)/2], 0 ≤ x ∧ x ≤ 1 := by
    intro x hx
    simp only [List.mem_singleton] at hx
    subst hx
    norm_num
  exact ⟨h, c2_column_sums .reduced 2 [Edge.mk 0 1] [(1 : ℚ)/2] 1 h⟩

/-- Reads through a double `set` at two distinct in-range positions. -/
lemma getD_set_set (bits : List ℕ) (i j u v : ℕ) (hij : i ≠ j)
    (hi : i < bits.length) (hj : j < bits.length) :
    ((bits.set i u).set j v).getD i 0 = u ∧ ((bits.set i u).set j v).getD j 0 = v := by
  constructor
  · rw [List.getD_eq_getElem?_getD, List.getElem?_set_ne (Ne.symm hij),
      List.getElem?_set_self hi]
    rfl
  · rw [List.getD_eq_getElem?_getD,
      List.getElem?_set_self (by simpa [List.length_set] using hj)]
    rfl

/-- On a column of the two-free-rows shape, the sampling loop with a draw
in `(0, 1)` lands on state 1 or state 2. -/
lemma sampleIndex_two_free (q r : ℚ) (hr0 : 0 < r) (hr1 : r < 1) :
    sampleIndex [0, q, 1 - q, 0] r = 1 ∨ sampleIndex [0, q, 1 - q, 0] r = 2 := by
  unfold sampleIndex
  simp only [List.getD_cons_zero, List.getD_cons_succ]
  rw [if_neg (by linarith)]
  by_cases hq : r ≤ 0 + q
  · rw [if_pos hq]
    exact Or.inl rfl
  · rw [if_neg hq, if_pos (by linarith)]
    exact Or.inr rfl

/-- C10: every gate matrix of every variant has rows 0 and 3 identically
zero; hence with parameters in `[0,1]`, a draw in `(0,1)`, binary bits and
in-range distinct endpoints, the sampled output state is 1 or 2 and the two
endpoint bits differ immediately after the gate. -/
theorem c10_rows_zero_flip (t : AlgorithmType) (n : ℕ) (edges : List Edge)
    (params : List ℚ) (layers : ℕ) (gate : CircuitGate)
    (hg : gate ∈ getCircuitGenerator t n edges params layers)
    (bits : List ℕ) (r : ℚ)
    (hp : ∀ x ∈ params, 0 ≤ x ∧ x ≤ 1)
    (hr0 : 0 < r) (hr1 : r < 1)
    (hij : gate.bitIndices.1 ≠ gate.bitIndices.2)
    (hi : gate.bitIndices.1 < bits.length) (hj : gate.bitIndices.2 < bits.length)
    (hb : ∀ b ∈ bits, b ≤ 1) :
    gate.matrix.getD 0 [] = [0, 0, 0, 0]
    ∧ gate.matrix.getD 3 [] = [0, 0, 0, 0]
    ∧ (sampleIndex (gateColumn gate (inputStateOf bits gate)) r = 1
        ∨ sampleIndex (gateColumn gate (inputStateOf bits gate)) r = 2)
    ∧ (applyGate bits gate r).getD gate.bitIndices.1 0
        ≠ (applyGate bits gate r).getD gate.bitIndices.2 0 := by
  obtain ⟨q0, q1, q2, q3, hm⟩ := gate_matrix_shape t n edges params layers gate hg
  have hbi : bits.getD gate.bitIndices.1 0 ≤ 1 := by
    rw [List.getD_eq_getElem _ _ hi]
    exact hb _ (List.getElem_mem hi)
  have hbj : bits.getD gate.bitIndices.2 0 ≤ 1 := by
    rw [List.getD_eq_getElem _ _ hj]
    exact hb _ (List.getElem_mem hj)
  have hcol : ∃ q : ℚ, gateColumn gate (inputStateOf bits gate) = [0, q, 1 - q, 0] := by
    have hs : inputStateOf bits gate ≤ 3 := by
      unfold inputStateOf
      omega
    set s := inputStateOf bits gate with hsdef
    interval_cases s
    · exact ⟨q0, by simp [gateColumn, mAt, hm]⟩
    · exact ⟨q1, by simp [gateColumn, mAt, hm]⟩
    · exact ⟨q2, by simp [gateColumn, mAt, hm]⟩
    · exact ⟨q3, by simp [gateColumn, mAt, hm]⟩
  obtain ⟨q, hq⟩ := hcol
  have hk : sampleIndex (gateColumn gate (inputStateOf bits gate)) r = 1
      ∨ sampleIndex (gateColumn gate (inputStateOf bits gate)) r = 2 := by
    rw [hq]
    exact sampleIndex_two_free q r hr0 hr1
  have happ : applyGate bits gate r =
      (bits.set gate.bitIndices.1
        (sampleIndex (gateColumn gate (inputStateOf bits gate)) r / 2 % 2)).set
        gate.bitIndices.2
        (sampleIndex (gateColumn gate (inputStateOf bits gate)) r % 2) := rfl
  refine ⟨by rw [hm]; rfl, by rw [hm]; rfl, hk, ?_⟩
  rcases hk with hk1 | hk2
  · rw [happ, hk1]
    obtain ⟨hu, hv⟩ := getD_set_set bits _ _ (1 / 2 % 2) (1 % 2) hij hi hj
    rw [hu, hv]
    decide
  · rw [happ, hk2]
    obtain ⟨hu, hv⟩ := getD_set_set bits _ _ (2 / 2 % 2) (2 % 2) hij hi hj
    rw [hu, hv]
    decide

/-- Witness for C10 on a concrete one-edge reduced circuit. -/
theorem c10_witness :
    ((Edge.mk 0 1).source < 6 ∧ (0 : ℚ) < 1/3)
    ∧ ((CircuitGate.mk (0, 1) (reducedMatrix (1/2))).matrix.getD 0 [] = [0, 0, 0, 0]
      ∧ (CircuitGate.mk (0, 1) (reducedMatrix (1/2))).matrix.getD 3 [] = [0, 0, 0, 0]
      ∧ (sampleIndex (gateColumn (CircuitGate.mk (0, 1) (reducedMatrix (1/2)))
            (inputStateOf [0, 0] (CircuitGate.mk (0, 1) (reducedMatrix (1/2))))) (1/3) = 1
          ∨ sampleIndex (gateColumn (CircuitGate.mk (0, 1) (reducedMatrix (1/2)))
            (inputStateOf [0, 0] (CircuitGate.mk (0, 1) (reducedMatrix (1/2))))) (1/3) = 2)
      ∧ (applyGate [0, 0] (CircuitGate.mk (0, 1) (reducedMatrix (1/2))) (1/3)).getD
            (CircuitGate.mk (0, 1) (reducedMatrix (1/2))).bitIndices.1 0
          ≠ (applyGate [0, 0] (CircuitGate.mk (0, 1) (reducedMatrix (1/2))) (1/3)).getD
            (CircuitGate.mk (0, 1) (reducedMatrix (1/2))).bitIndices.2 0) := by
  refine ⟨by norm_num, ?_⟩
  exact c10_rows_zero_flip .reduced 2 [Edge.mk 0 1] [(1 : ℚ)/2] 1
    (CircuitGate.mk (0, 1) (reducedMatrix (1/2)))
    (by simp [getCircuitGenerator, reducedPaoaCircuit, paramAt])
    [0, 0] (1/3)
    (by intro x hx; simp only [List.mem_singleton] at hx; subst hx; norm_num)
    (by norm_num) (by norm_num) (by norm_num) (by norm_num) (by norm_num)
    (by decide)

/-- Replacing a present-but-zero parameter by the neutral `1/2` changes no
read through the `params[k] || 0.5` fallback. -/
lemma paramAt_set_half (params : List ℚ) (i : ℕ) (h : params[i]? = some 0)
    (k : ℕ) : paramAt (params.set i (1/2)) k = paramAt params k := by
  by_cases hik : k = i
  · subst hik
    have hlt : k < params.length := by
      by_contra hge
      rw [List.getElem?_eq_none (by omega)] at h
      exact Option.noConfusion h
    rw [paramAt, paramAt, List.getElem?_set_self hlt, h]
    norm_num
  · rw [paramAt, paramAt, List.getElem?_set_ne (Ne.symm hik)]

/-- C9: in all three circuit builders, a parameter slot holding exactly `0`
behaves as a missing slot: replacing any such entry by `0.5` yields the
identical circuit. -/
theorem c9_zero_param_fallback (t : AlgorithmType) (n : ℕ) (edges : List Edge)
    (params : List ℚ) (layers : ℕ) (i : ℕ) (h : params[i]? = some 0) :
    getCircuitGenerator t n edges (params.set i (1/2)) layers
      = getCircuitGenerator t n edges params layers := by
  cases t <;>
    simp only [getCircuitGenerator, reducedPaoaCircuit, minimumPaoaCircuit,
      standardPaoaCircuit, standardMatrix, paramAt_set_half params i h]

/-- Witness for C9 at a concrete parameter vector holding a 0. -/
theorem c9_witness :
    (([(0 : ℚ), 1/4])[0]? = some 0)
    ∧ getCircuitGenerator .reduced 2 [Edge.mk 0 1] ([(0 : ℚ), 1/4].set 0 (1/2)) 1
      = getCircuitGenerator .reduced 2 [Edge.mk 0 1] [(0 : ℚ), 1/4] 1 :=
  ⟨rfl, c9_zero_param_fallback .reduced 2 [Edge.mk 0 1] [(0 : ℚ), 1/4] 1 0 rfl⟩

/-- C1 counterexample: in the standard variant, entry (row 1, column 0) of a
gate matrix is read directly from the parameter vector, so column 0 does
depend on the parameters (`1/4` against `3/4` here), contradicting the
claim that columns 0 and 3 stay at a fixed structural role. -/
theorem c1_counterexample :
    mAt ((standardPaoaCircuit 2 [Edge.mk 0 1] [(1 : ℚ)/4, 1/2, 1/2, 1/2] 1).headD
      (CircuitGate.mk (0, 0) [])).matrix 1 0 = 1/4
    ∧ mAt ((standardPaoaCircuit 2 [Edge.mk 0 1] [(3 : ℚ)/4, 1/2, 1/2, 1/2] 1).headD
      (CircuitGate.mk (0, 0) [])).matrix 1 0 = 3/4
    ∧ ((1 : ℚ)/4) ≠ 3/4 := by
  have h0 : (standardPaoaCircuit 2 [Edge.mk 0 1] [(1 : ℚ)/4, 1/2, 1/2, 1/2] 1).headD
      (CircuitGate.mk (0, 0) [])
      = CircuitGate.mk (0, 1) (standardMatrix [(1 : ℚ)/4, 1/2, 1/2, 1/2] 0) := rfl
  have h1 : (standardPaoaCircuit 2 [Edge.mk 0 1] [(3 : ℚ)/4, 1/2, 1/2, 1/2] 1).headD
      (CircuitGate.mk (0, 0) [])
      = CircuitGate.mk (0, 1) (standardMatrix [(3 : ℚ)/4, 1/2, 1/2, 1/2] 0) := rfl
  refine ⟨?_, ?_, by norm_num⟩
  · rw [h0]
    show paramAt [(1 : ℚ)/4, 1/2, 1/2, 1/2] 0 = 1/4
    unfold paramAt
    norm_num
  · rw [h1]
    show paramAt [(3 : ℚ)/4, 1/2, 1/2, 1/2] 0 = 3/4
    unfold paramAt
    norm_num

/-- C1 amended: in the standard variant every gate matrix takes all four of
its columns from four consecutive parameter slots — row 1 directly, row 2 as
the complement — while rows 0 and 3 (not columns 0 and 3) stay fixed at zero
independently of the parameters. -/
theorem c1_amended_standard_rows (n : ℕ) (edges : List Edge) (params : List ℚ)
    (layers : ℕ) :
    ∀ gate ∈ standardPaoaCircuit n edges params layers, ∃ k : ℕ,
      gate.matrix =
        [[0, 0, 0, 0],
         [paramAt params k, paramAt params (k+1), paramAt params (k+2),
           paramAt params (k+3)],
         [1 - paramAt params k, 1 - paramAt params (k+1), 1 - paramAt params (k+2),
           1 - paramAt params (k+3)],
         [0, 0, 0, 0]] := by
  intro gate hg
  simp only [standardPaoaCircuit, List.mem_flatMap, List.mem_map] at hg
  obtain ⟨l, -, ie, -, rfl⟩ := hg
  exact ⟨4 * (l * edges.length + ie.1), rfl⟩

/-- Witness for the amended C1 on a concrete one-edge standard circuit. -/
theorem c1_amended_witness :
    (CircuitGate.mk (0, 1) (standardMatrix [(1 : ℚ)/4, 1/2, 1/2, 1/2] 0)
      ∈ standardPaoaCircuit 2 [Edge.mk 0 1] [(1 : ℚ)/4, 1/2, 1/2, 1/2] 1)
    ∧ ∃ k : ℕ,
      (CircuitGate.mk (0, 1) (standardMatrix [(1 : ℚ)/4, 1/2, 1/2, 1/2] 0)).matrix =
        [[0, 0, 0, 0],
         [paramAt [(1 : ℚ)/4, 1/2, 1/2, 1/2] k, paramAt [(1 : ℚ)/4, 1/2, 1/2, 1/2] (k+1),
           paramAt [(1 : ℚ)/4, 1/2, 1/2, 1/2] (k+2), paramAt [(1 : ℚ)/4, 1/2, 1/2, 1/2] (k+3)],
         [1 - paramAt [(1 : ℚ)/4, 1/2, 1/2, 1/2] k, 1 - paramAt [(1 : ℚ)/4, 1/2, 1/2, 1/2] (k+1),
           1 - paramAt [(1 : ℚ)/4, 1/2, 1/2, 1/2] (k+2), 1 - paramAt [(1 : ℚ)/4, 1/2, 1/2, 1/2] (k+3)],
         [0, 0, 0, 0]] := by
  have h : CircuitGate.mk (0, 1) (standardMatrix [(1 : ℚ)/4, 1/2, 1/2, 1/2] 0)
      ∈ standardPaoaCircuit 2 [Edge.mk 0 1] [(1 : ℚ)/4, 1/2, 1/2, 1/2] 1 := by
    have e : standardPaoaCircuit 2 [Edge.mk 0 1] [(1 : ℚ)/4, 1/2, 1/2, 1/2] 1
        = [CircuitGate.mk (0, 1) (standardMatrix [(1 : ℚ)/4, 1/2, 1/2, 1/2] 0)] := rfl
    rw [e]
    exact List.mem_singleton.mpr rfl
  exact ⟨h, c1_amended_standard_rows 2 [Edge.mk 0 1] [(1 : ℚ)/4, 1/2, 1/2, 1/2] 1 _ h⟩

/-- The unrolled sampling loop computes exactly the spec's rule on a
4-entry column: the smallest `k < 4` whose cumulative sum reaches `r`,
with default 3 when none does. -/
lemma sampleIndex_least (a b c d r : ℚ) :
    sampleIndex [a, b, c, d] r < 4
    ∧ (∀ m, m < 4 → r ≤ cumul [a, b, c, d] (m + 1) →
        sampleIndex [a, b, c, d] r ≤ m
        ∧ r ≤ cumul [a, b, c, d] (sampleIndex [a, b, c, d] r + 1))
    ∧ ((∀ m, m < 4 → ¬ r ≤ cumul [a, b, c, d] (m + 1)) →
        sampleIndex [a, b, c, d] r = 3) := by
  have hc1 : cumul [a, b, c, d] 1 = a := by simp [cumul]
  have hc2 : cumul [a, b, c, d] 2 = a + b := by simp [cumul]
  have hc3 : cumul [a, b, c, d] 3 = a + b + c := by simp [cumul]; ring
  have hc4 : cumul [a, b, c, d] 4 = a + b + c + d := by simp [cumul]; ring
  simp only [sampleIndex, List.getD_cons_zero, List.getD_cons_succ]
  split_ifs with h1 h2 h3 h4
  · refine ⟨by omega, fun m hm hr => ⟨Nat.zero_le m, by rw [hc1]; exact h1⟩,
      fun hall => absurd (show r ≤ cumul [a, b, c, d] (0 + 1) by rw [hc1]; exact h1)
        (hall 0 (by omega))⟩
  · refine ⟨by omega, fun m hm hr => ⟨?_, by rw [hc2]; exact h2⟩,
      fun hall => absurd (show r ≤ cumul [a, b, c, d] (1 + 1) by rw [hc2]; exact h2)
        (hall 1 (by omega))⟩
    interval_cases m
    · rw [hc1] at hr
      exact absurd hr h1
    · omega
    · omega
    · omega
  · refine ⟨by omega, fun m hm hr => ⟨?_, by rw [hc3]; exact h3⟩,
      fun hall => absurd (show r ≤ cumul [a, b, c, d] (2 + 1) by rw [hc3]; exact h3)
        (hall 2 (by omega))⟩
    interval_cases m
    · rw [hc1] at hr
      exact absurd hr h1
    · rw [hc2] at hr
      exact absurd hr h2
    · omega
    · omega
  · refine ⟨by omega, fun m hm hr => ⟨?_, by rw [hc4]; exact h4⟩, fun _ => rfl⟩
    interval_cases m
    · rw [hc1] at hr
      exact absurd hr h1
    · rw [hc2] at hr
      exact absurd hr h2
    · rw [hc3] at hr
      exact absurd hr h3
    · omega
  · refine ⟨by omega, fun m hm hr => ?_, fun _ => rfl⟩
    exfalso
    interval_cases m
    · rw [hc1] at hr
      exact absurd hr h1
    · rw [hc2] at hr
      exact absurd hr h2
    · rw [hc3] at hr
      exact absurd hr h3
    · rw [hc4] at hr
      exact absurd hr h4

/-- C3: one gate application reads column `s = 2*bit_source + bit_target`,
samples the smallest `k` whose cumulative probability reaches the draw `r`
(default 3), and writes back `floor(k/2) mod 2` and `k mod 2` — identically
in batch mode (`applyGate`) and inspection mode (`stepOf`). -/
theorem c3_gate_sampling (bits : List ℕ) (gate : CircuitGate) (r : ℚ) :
    applyGate bits gate r =
      (bits.set gate.bitIndices.1
        (sampleIndex (gateColumn gate (inputStateOf bits gate)) r / 2 % 2)).set
        gate.bitIndices.2 (sampleIndex (gateColumn gate (inputStateOf bits gate)) r % 2)
    ∧ (stepOf bits gate r).outputState
        = sampleIndex (gateColumn gate (inputStateOf bits gate)) r
    ∧ (stepOf bits gate r).bitsAfter = applyGate bits gate r
    ∧ (stepOf bits gate r).inputState
        = 2 * bits.getD gate.bitIndices.1 0 + bits.getD gate.bitIndices.2 0
    ∧ (stepOf bits gate r).probs = gateColumn gate (inputStateOf bits gate)
    ∧ sampleIndex (gateColumn gate (inputStateOf bits gate)) r < 4
    ∧ (∀ m, m < 4 → r ≤ cumul (gateColumn gate (inputStateOf bits gate)) (m + 1) →
        sampleIndex (gateColumn gate (inputStateOf bits gate)) r ≤ m
        ∧ r ≤ cumul (gateColumn gate (inputStateOf bits gate))
            (sampleIndex (gateColumn gate (inputStateOf bits gate)) r + 1))
    ∧ ((∀ m, m < 4 → ¬ r ≤ cumul (gateColumn gate (inputStateOf bits gate)) (m + 1)) →
        sampleIndex (gateColumn gate (inputStateOf bits gate)) r = 3) := by
  obtain ⟨hlt, hmin, hdef⟩ := sampleIndex_least
    (mAt gate.matrix 0 (inputStateOf bits gate))
    (mAt gate.matrix 1 (inputStateOf bits gate))
    (mAt gate.matrix 2 (inputStateOf bits gate))
    (mAt gate.matrix 3 (inputStateOf bits gate)) r
  refine ⟨rfl, rfl, rfl, ?_, rfl, hlt, hmin, hdef⟩
  show inputStateOf bits gate = _
  unfold inputStateOf
  omega

/-- Witness for C3 at a concrete gate, bits and draw. -/
theorem c3_witness :
    (stepOf [0, 1] (CircuitGate.mk (0, 1) (reducedMatrix (1/2))) (1/3)).outputState
      = sampleIndex (gateColumn (CircuitGate.mk (0, 1) (reducedMatrix (1/2)))
          (inputStateOf [0, 1] (CircuitGate.mk (0, 1) (reducedMatrix (1/2))))) (1/3) :=
  (c3_gate_sampling [0, 1] (CircuitGate.mk (0, 1) (reducedMatrix (1/2))) (1/3)).2.1

/-- Inspection mode yields exactly one StepInfo per gate. -/
lemma stepByStep_length (circuit : List CircuitGate) :
    ∀ (bits : List ℕ) (rs : ℕ → ℚ),
      (runCircuitStepByStep bits circuit rs).length = circuit.length := by
  induction circuit with
  | nil => intro bits rs; rfl
  | cons g gs ih =>
      intro bits rs
      simp only [runCircuitStepByStep, List.length_cons, ih]

/-- The last yielded `bitsAfter` of inspection mode is the result of
folding `applyGate` over the circuit with the same draws. -/
lemma stepByStep_last (circuit : List CircuitGate) :
    ∀ (bits : List ℕ) (rs : ℕ → ℚ), circuit ≠ [] →
      (runCircuitStepByStep bits circuit rs).getLast?.map StepInfo.bitsAfter
        = some (runGates bits circuit rs) := by
  induction circuit with
  | nil => intro bits rs h; exact absurd rfl h
  | cons g gs ih =>
      intro bits rs _
      cases gs with
      | nil => rfl
      | cons g2 gs2 =>
          have h2 : runCircuitStepByStep bits (g :: g2 :: gs2) rs
              = stepOf bits g (rs 0) ::
                runCircuitStepByStep (stepOf bits g (rs 0)).bitsAfter (g2 :: gs2)
                  (fun n => rs (n + 1)) := rfl
          rw [h2]
          obtain ⟨x, xs, hx⟩ : ∃ x xs,
              runCircuitStepByStep (stepOf bits g (rs 0)).bitsAfter (g2 :: gs2)
                (fun n => rs (n + 1)) = x :: xs := ⟨_, _, rfl⟩
          rw [hx, List.getLast?_cons_cons, ← hx,
            ih (stepOf bits g (rs 0)).bitsAfter (fun n => rs (n + 1))
              (List.cons_ne_nil _ _)]
          rfl

/-- C4: for any starting assignment and circuit, the inspection-mode trace
has exactly one step per gate, and with the same draws as batch-mode trial
`t`, the last step's `bitsAfter` equals that trial's final assignment. -/
theorem c4_trace_batch (startingBits : List ℕ) (circuit : List CircuitGate)
    (rs : ℕ → ℚ) (numTrials t : ℕ) (ht : t < numTrials) :
    (runCircuitStepByStep startingBits circuit
        (fun g => rs (t * circuit.length + g))).length = circuit.length
    ∧ (circuit ≠ [] →
        (runCircuitStepByStep startingBits circuit
            (fun g => rs (t * circuit.length + g))).getLast?.map StepInfo.bitsAfter
          = some ((runCircuit startingBits circuit numTrials rs).getD t [])) := by
  refine ⟨stepByStep_length circuit startingBits _, fun hne => ?_⟩
  have hbatch : (runCircuit startingBits circuit numTrials rs).getD t []
      = runGates startingBits circuit (fun g => rs (t * circuit.length + g)) := by
    unfold runCircuit
    rw [List.getD_eq_getElem _ _ (by simpa using ht)]
    simp
  rw [hbatch, stepByStep_last circuit startingBits _ hne]

/-- Witness for C4 on a concrete one-gate circuit and a single trial. -/
theorem c4_witness :
    (0 < 1 ∧ ([CircuitGate.mk (0, 1) (reducedMatrix (1/2))] : List CircuitGate) ≠ [])
    ∧ (runCircuitStepByStep [0, 1] [CircuitGate.mk (0, 1) (reducedMatrix (1/2))]
        (fun g => (fun _ => (1 : ℚ)/3) (0 * 1 + g))).length = 1
    ∧ (runCircuitStepByStep [0, 1] [CircuitGate.mk (0, 1) (reducedMatrix (1/2))]
        (fun g => (fun _ => (1 : ℚ)/3) (0 * 1 + g))).getLast?.map StepInfo.bitsAfter
      = some ((runCircuit [0, 1] [CircuitGate.mk (0, 1) (reducedMatrix (1/2))] 1
          (fun _ => (1 : ℚ)/3)).getD 0 []) := by
  have h := c4_trace_batch [0, 1] [CircuitGate.mk (0, 1) (reducedMatrix (1/2))]
    (fun _ => (1 : ℚ)/3) 1 0 (by decide)
  exact ⟨⟨by decide, List.cons_ne_nil _ _⟩, h.1, h.2 (List.cons_ne_nil _ _)⟩

/-- Setting one in-range cell exchanges its old value for the new one in
the count of any value. -/
lemma count_set_add (l : List ℕ) : ∀ (i a v : ℕ), i < l.length →
    (l.set i a).count v + (if l.getD i 0 = v then 1 else 0)
      = l.count v + (if a = v then 1 else 0) := by
  induction l with
  | nil =>
      intro i a v h
      simp at h
  | cons x t ih =>
      intro i a v h
      cases i with
      | zero =>
          simp only [List.set_cons_zero, List.getD_cons_zero, List.count_cons,
            beq_iff_eq]
          split_ifs <;> omega
      | succ i =>
          have hi : i < t.length := by
            simp only [List.length_cons] at h
            omega
          have ihv := ih i a v hi
          simp only [List.set_cons_succ, List.getD_cons_succ, List.count_cons,
            beq_iff_eq]
          split_ifs at ihv ⊢ <;> omega

/-- The destructuring swap of two in-range positions preserves counts. -/
lemma count_swapL (l : List ℕ) (i j v : ℕ) (hi : i < l.length)
    (hj : j < l.length) : (swapL l i j).count v = l.count v := by
  by_cases hij : i = j
  · subst hij
    unfold swapL
    have h3 : (l.set i (l.getD i 0)).getD i 0 = l.getD i 0 := by
      rw [List.getD_eq_getElem?_getD, List.getElem?_set_self hi]
      rfl
    have h1 := count_set_add l i (l.getD i 0) v hi
    have h2 := count_set_add (l.set i (l.getD i 0)) i (l.getD i 0) v
      (by simpa using hi)
    rw [h3] at h2
    omega
  · unfold swapL
    have hgj : (l.set i (l.getD j 0)).getD j 0 = l.getD j 0 := by
      rw [List.getD_eq_getElem?_getD, List.getElem?_set_ne hij,
        ← List.getD_eq_getElem?_getD]
    have h1 := count_set_add l i (l.getD j 0) v hi
    have h2 := count_set_add (l.set i (l.getD j 0)) j (l.getD i 0) v
      (by simpa using hj)
    rw [hgj] at h2
    omega

lemma fyGo_length (cs : ℕ → ℕ) : ∀ (i t : ℕ) (l : List ℕ),
    (fyGo cs t i l).length = l.length := by
  intro i
  induction i with
  | zero => intro t l; rfl
  | succ i ih =>
      intro t l
      show (fyGo cs (t + 1) i (swapL l (i + 1) (cs t % (i + 2)))).length = l.length
      rw [ih]
      simp [swapL]

lemma fyGo_count (cs : ℕ → ℕ) (v : ℕ) : ∀ (i t : ℕ) (l : List ℕ),
    i < l.length → (fyGo cs t i l).count v = l.count v := by
  intro i
  induction i with
  | zero => intro t l _; rfl
  | succ i ih =>
      intro t l h
      show (fyGo cs (t + 1) i (swapL l (i + 1) (cs t % (i + 2)))).count v = l.count v
      have hm : cs t % (i + 2) < i + 2 := Nat.mod_lt _ (by omega)
      have hsl : (swapL l (i + 1) (cs t % (i + 2))).length = l.length := by
        simp [swapL]
      rw [ih (t + 1) _ (by omega)]
      exact count_swapL l (i + 1) (cs t % (i + 2)) v h (by omega)

lemma shuffle_length (l : List ℕ) (cs : ℕ → ℕ) : (shuffle l cs).length = l.length :=
  fyGo_length cs (l.length - 1) 0 l

/-- The Fisher-Yates shuffle preserves the count of every value. -/
lemma shuffle_count (l : List ℕ) (cs : ℕ → ℕ) (v : ℕ) :
    (shuffle l cs).count v = l.count v := by
  cases l with
  | nil => rfl
  | cons x t => exact fyGo_count cs v ((x :: t).length - 1) 0 (x :: t) (by simp)

/-- A successful pairing consumes its even-length input exactly: the edge
endpoints, flattened in order, are the shuffled point list. -/
lemma pairUp_flatten : ∀ (l : List ℕ) (seen : List (ℕ × ℕ)) (es : List Edge),
    pairUp seen l = some es → l.length % 2 = 0 →
    es.flatMap (fun e => [e.source, e.target]) = l
  | [], _, es, h, _ => by
      simp only [pairUp, Option.some.injEq] at h
      subst h
      rfl
  | [u], _, es, h, hl => by
      simp at hl
  | u :: v :: rest, seen, es, h, hl => by
      simp only [pairUp] at h
      by_cases huv : u = v
      · rw [if_pos huv] at h
        exact absurd h (by simp)
      · rw [if_neg huv] at h
        by_cases hkey : (if u < v then (u, v) else (v, u)) ∈ seen
        · rw [if_pos hkey] at h
          exact absurd h (by simp)
        · rw [if_neg hkey] at h
          rw [Option.map_eq_some'] at h
          obtain ⟨es', hrec, rfl⟩ := h
          have hrl : rest.length % 2 = 0 := by
            simp only [List.length_cons] at hl
            omega
          have hfl := pairUp_flatten rest _ es' hrec hrl
          simp [List.flatMap_cons, hfl]

lemma flatMap_pair_length (es : List Edge) :
    (es.flatMap fun e => [e.source, e.target]).length = 2 * es.length := by
  induction es with
  | nil => rfl
  | cons e t ih =>
      simp only [List.flatMap_cons, List.length_append, List.length_cons,
        List.length_nil, ih]
      omega

/-- Any successful pairing attempt for `n = 6, d = 3` yields 9 edges and
gives every node degree exactly 3. -/
lemma try_63_success (cs : ℕ → ℕ) (es : List Edge)
    (h : tryGenerateRegularEdges 6 3 cs = some es) :
    es.length = 9 ∧ ∀ v < 6, degree v es = 3 := by
  unfold tryGenerateRegularEdges at h
  have hlen : (shuffle (stubPoints 6 3) cs).length = 18 := by
    rw [shuffle_length]
    decide
  have hflat := pairUp_flatten _ [] es h (by rw [hlen])
  have h2len : 2 * es.length = 18 := by
    have hc := congrArg List.length hflat
    rw [flatMap_pair_length, hlen] at hc
    exact hc
  refine ⟨by omega, fun v hv => ?_⟩
  unfold degree
  rw [hflat, shuffle_count]
  interval_cases v <;> decide

/-- Each run of the retry loop returns either some successful attempt's
edges or the deterministic fallback. -/
lemma tryAttempts_cases (n d : ℕ) (css : ℕ → ℕ → ℕ) : ∀ (fuel a : ℕ),
    (∃ cs, tryGenerateRegularEdges n d cs = some (tryAttempts n d css a fuel))
    ∨ tryAttempts n d css a fuel = fallbackEdges n d := by
  intro fuel
  induction fuel with
  | zero => intro a; exact Or.inr rfl
  | succ fuel ih =>
      intro a
      cases htry : tryGenerateRegularEdges n d (css a) with
      | some es =>
          have hred : tryAttempts n d css a (fuel + 1) = es := by
            simp only [tryAttempts, htry]
          exact Or.inl ⟨css a, by rw [hred, htry]⟩
      | none =>
          have hred : tryAttempts n d css a (fuel + 1) = tryAttempts n d css (a + 1) fuel := by
            simp only [tryAttempts, htry]
          rw [hred]
          exact ih (a + 1)

/-- C5 counterexample: with a choice stream that makes every Fisher-Yates
shuffle the identity (so every attempt pairs a node with itself and fails),
all 100 attempts are exhausted and the fallback is returned — a graph with
12 edges, not 9, for `n = 6, d = 3`. -/
theorem c5_counterexample :
    generateRandomRegularGraph 6 3 (fun _ t => 17 - t) = some (fallbackEdges 6 3)
    ∧ (fallbackEdges 6 3).length ≠ 9
    ∧ degree 0 (fallbackEdges 6 3) ≠ 3 := by decide

/-- C5 amended: for `n = 6, d = 3`, a graph produced by a successful pairing
attempt has exactly 9 edges and every node degree exactly 3, for every
sequence of draws; a run in which all 100 attempts fail instead returns the
fallback graph, which has 12 edges and every node degree 4. -/
theorem c5_amended_regular (css : ℕ → ℕ → ℕ) (es : List Edge)
    (h : generateRandomRegularGraph 6 3 css = some es) :
    (es.length = 9 ∧ ∀ v < 6, degree v es = 3)
    ∨ (es = fallbackEdges 6 3 ∧ es.length = 12 ∧ ∀ v < 6, degree v es = 4) := by
  unfold generateRandomRegularGraph at h
  rw [if_neg (by decide), if_neg (by decide), Option.some.injEq] at h
  subst h
  rcases tryAttempts_cases 6 3 css 100 0 with ⟨cs, hsucc⟩ | hfb
  · exact Or.inl (try_63_success cs _ hsucc)
  · refine Or.inr ⟨hfb, by rw [hfb]; decide, fun v hv => ?_⟩
    rw [hfb]
    interval_cases v <;> decide

/-- Witness for the amended C5 on the all-attempts-fail stream. -/
theorem c5_witness :
    (generateRandomRegularGraph 6 3 (fun _ t => 17 - t) = some (fallbackEdges 6 3))
    ∧ (((fallbackEdges 6 3).length = 9 ∧ ∀ v < 6, degree v (fallbackEdges 6 3) = 3)
      ∨ (fallbackEdges 6 3 = fallbackEdges 6 3 ∧ (fallbackEdges 6 3).length = 12
        ∧ ∀ v < 6, degree v (fallbackEdges 6 3) = 4)) := by
  have h : generateRandomRegularGraph 6 3 (fun _ t => 17 - t)
      = some (fallbackEdges 6 3) := by decide
  exact ⟨h, c5_amended_regular (fun _ t => 17 - t) (fallbackEdges 6 3) h⟩

/-- C6: the fallback taken for the valid input `n = 4, d = 3` (forced by an
identity-shuffle choice stream) contains the unordered pair `{0, 2}` twice
(and `{1, 3}` twice), so the returned graph is not simple, refuting the
no-duplicate-edge invariant. -/
theorem c6_fallback_duplicate :
    (4 * 3) % 2 = 0 ∧ 3 < 4
    ∧ generateRandomRegularGraph 4 3 (fun _ t => 11 - t) = some (fallbackEdges 4 3)
    ∧ Edge.mk 0 2 ∈ fallbackEdges 4 3 ∧ Edge.mk 2 0 ∈ fallbackEdges 4 3
    ∧ ¬ isSimple (fallbackEdges 4 3) := by decide
